import Mathlib

/-!
# Shallow embedding of the chain-visualizer reconciliation core

This file models the ingestion/reconciliation engine of the repository's
`useBlockchainData` hook (src/src/useBlockchainData.js): the `Item` record,
`cleanupOldItems` (both variants found in that file), `addItem` (the
non-block insert/update path and the multi-representation block path,
including the missing-parent ledger bookkeeping), and the state discipline
of `fetchMissingParent`.

JavaScript conventions are made explicit:
* nullable strings are `Option String`; the empty string is falsy, so
  truthiness of a string value is `jsTruthyStr`;
* a JS number that may be `null` or `NaN` is `JsNum`;
* `parseInt(s, 16)` is `parseIntHex` (radix-16, optional sign and `0x`
  prefix, longest digit prefix, `NaN` when no digit is consumed; a `null`
  argument is coerced to the string "null", which parses to `NaN`);
* `Array.prototype.sort` with a consistent comparator `cmp` is required by
  the JS spec to be a stable sort ordered by `cmp a b <= 0`; it is modelled
  by `List.insertionSort` (stable) over the relation `fun a b => cmp a b <= 0`;
* `Date.now()` is passed in explicitly as a `now : Nat` argument;
* the `Set`/`Map`-keyed collections `fetchingParentsRef` / `missingParentsRef`
  are duplicate-free `List String` maintained by `setAdd`.
-/

namespace ChainVis

/-- A JS numeric value that may be `null` or `NaN`. -/
inductive JsNum where
  | null : JsNum
  | nan : JsNum
  | int : Int → JsNum
deriving DecidableEq, Repr

/-- JS `x || 0` coercion used by the sort comparators: `null`, `NaN` and `0`
all become `0`. -/
def jsOr0 : JsNum → Int
  | .int n => n
  | _ => 0

/-- Value of a hexadecimal digit character, if it is one. -/
def hexVal? (c : Char) : Option Nat :=
  if c.isDigit then some (c.toNat - 48)
  else if 'a' ≤ c ∧ c ≤ 'f' then some (c.toNat - 87)
  else if 'A' ≤ c ∧ c ≤ 'F' then some (c.toNat - 55)
  else none

/-- Accumulate the value of the longest hex-digit prefix (radix 16),
ignoring everything from the first non-digit on, as `parseInt` does. -/
def hexDigitsVal : List Char → Nat → Nat
  | [], acc => acc
  | c :: cs, acc =>
    match hexVal? c with
    | some v => hexDigitsVal cs (16 * acc + v)
    | none => acc

/-- Core of `parseInt(·, 16)` after sign handling: strip an optional
`0x`/`0X` prefix, then require at least one hex digit. -/
def parseIntHexCore (cs : List Char) : JsNum :=
  let cs' := match cs with
    | '0' :: 'x' :: rest => rest
    | '0' :: 'X' :: rest => rest
    | _ => cs
  match cs' with
  | [] => .nan
  | c :: _ => if (hexVal? c).isSome then .int (hexDigitsVal cs' 0) else .nan

/-- JS `parseInt(s, 16)`. A `null` argument stringifies to "null" whose
first character is not a hex digit, hence `NaN`. -/
def parseIntHex : Option String → JsNum
  | none => .nan
  | some s =>
    match s.data.dropWhile (·.isWhitespace) with
    | '-' :: rest =>
      match parseIntHexCore rest with
      | .int n => .int (-n)
      | r => r
    | '+' :: rest => parseIntHexCore rest
    | cs => parseIntHexCore cs

/-- Truthiness of a nullable JS string: `null`/`undefined` and `""` are falsy. -/
def jsTruthyStr : Option String → Bool
  | none => false
  | some s => s ≠ ""

/-- JS `a || b` on nullable strings. -/
def jsOrOpt (a b : Option String) : Option String :=
  if jsTruthyStr a then a else b

/-- JS `p ? p.slice(0, 8) : null`. -/
def shortOf : Option String → Option String
  | none => none
  | some p => if p ≠ "" then some (p.take 8) else none

/-- The store's `Item` record. Block-representation items never receive an
`includedIn` field in the source; that absence is modelled as `none`. -/
structure Item where
  id : String
  type : String
  hash : String
  fullHash : String
  parentHash : Option String
  fullParentHash : Option String
  number : JsNum
  order : Option String
  timestamp : Nat
  includedIn : Option String
deriving DecidableEq, Repr

/-- The ascending-`number` display comparator `(a, b) => (a.number||0) - (b.number||0)`
as the relation `cmp a b <= 0` that JS sort establishes. -/
def numAscR (a b : Item) : Prop :=
  jsOr0 a.number - jsOr0 b.number ≤ 0

instance : DecidableRel numAscR := fun a b =>
  inferInstanceAs (Decidable (_ ≤ _))

instance : IsTotal Item numAscR :=
  ⟨fun a b => by
    unfold numAscR
    omega⟩

instance : IsTrans Item numAscR :=
  ⟨fun a b c hab hbc => by
    unfold numAscR at *
    omega⟩

/-- First hook variant's eviction comparator: descending `timestamp`
primary, descending `number` tie-break. -/
def relevanceCmp (a b : Item) : Int :=
  let d : Int := (b.timestamp : Int) - (a.timestamp : Int)
  if d ≠ 0 then d else jsOr0 b.number - jsOr0 a.number

/-- `relevanceCmp` as a sort relation. -/
def relevanceR (a b : Item) : Prop :=
  relevanceCmp a b ≤ 0

instance : DecidableRel relevanceR := fun a b =>
  inferInstanceAs (Decidable (_ ≤ _))

/-- Second hook variant's eviction comparator: descending `number` primary,
descending `timestamp` tie-break. -/
def relevance2Cmp (a b : Item) : Int :=
  let d : Int := jsOr0 b.number - jsOr0 a.number
  if d ≠ 0 then d else (b.timestamp : Int) - (a.timestamp : Int)

/-- `relevance2Cmp` as a sort relation. -/
def relevance2R (a b : Item) : Prop :=
  relevance2Cmp a b ≤ 0

instance : DecidableRel relevance2R := fun a b =>
  inferInstanceAs (Decidable (_ ≤ _))

/-- The all-zero "no parent" sentinel hash. -/
def zeroHash : String :=
  "0x0000000000000000000000000000000000000000000000000000000000000000"

/-- First hook variant's `cleanupOldItems`, with the runtime cap
`maxItemsToKeepRef.current` passed in as `cap`. -/
def cleanupOldItems (cap : Nat) (itemsList : List Item) : List Item :=
  if itemsList.length ≤ cap then itemsList
  else (List.insertionSort relevanceR itemsList).take cap

/-- The second hook variant's fixed cap (`MaxItemsToKeep = 300`). -/
def MaxItemsToKeep2 : Nat := 300

/-- Second hook variant's `cleanupOldItems` (fixed cap 300, `number`-primary
descending sort). -/
def cleanupOldItems2 (itemsList : List Item) : List Item :=
  if itemsList.length ≤ MaxItemsToKeep2 then itemsList
  else (List.insertionSort relevance2R itemsList).take MaxItemsToKeep2

/-- Add an element to a duplicate-free list-backed set (`Set.add` / `Map.set`). -/
def setAdd (l : List String) (x : String) : List String :=
  if x ∈ l then l else l ++ [x]

/-- The mutable state touched by `addItem`: the item collection, the
missing-parents ledger (`missingParentsRef` keys), the in-flight fetch set
(`fetchingParentsRef`) and `maxHeightRef`. -/
structure St where
  items : List Item
  missing : List String
  fetching : List String
  maxHeight : Int
deriving DecidableEq, Repr

/-- The initial state of the hook. -/
def St.empty : St := ⟨[], [], [], 0⟩

/-- Result of an `addItem` call: the updated state and the list of hashes
passed to `fetchMissingParent` during the call. -/
structure AddOut where
  st : St
  requests : List String
deriving DecidableEq, Repr

/-- The missing-parent check run for one newly inserted item: given the item's
`type` and raw `fullParentHash`, the post-insert collection and the two hash
sets, return the updated ledger together with the fetch requests issued. -/
def missingCheck (typ : String) (updatedItems : List Item)
    (missing fetching : List String) (fph : Option String) :
    List String × List String :=
  match fph with
  | none => (missing, [])
  | some p =>
    if p ≠ "" ∧ p ≠ zeroHash ∧ p ∉ missing ∧ p ∉ fetching then
      if updatedItems.any (fun it => decide (it.fullHash = p ∧ it.type = typ)) then
        (missing, [])
      else (setAdd missing p, [p])
    else (missing, [])

/-- The `forEach` loop of the block path running `missingCheck` for each new
representation, threading the ledger through the iterations. -/
def missingCheckAll (newItems updatedItems : List Item)
    (missing fetching : List String) : List String × List String :=
  newItems.foldl
    (fun acc ni =>
      let done := missingCheck ni.type updatedItems acc.1 fetching ni.fullParentHash
      (done.1, acc.2 ++ done.2))
    (missing, [])

/-- The `number` decoding of the non-block path:
`if (number) { decimalNumber = parseInt(number, 16) }` starting from `null`. -/
def nonBlockNumber (number : Option String) : JsNum :=
  if jsTruthyStr number then parseIntHex number else .null

/-- The item built by the non-block insertion path. -/
def mkNonBlockItem (typ hash : String)
    (parentHash number order includingHash : Option String) (now : Nat) : Item :=
  { id := typ ++ "-" ++ hash.take 8 ++ "-" ++ toString now
    type := typ
    hash := hash.take 8
    fullHash := hash
    parentHash := shortOf parentHash
    fullParentHash := parentHash
    number := nonBlockNumber number
    order := order
    timestamp := now
    includedIn := if jsTruthyStr includingHash then includingHash else none }

/-- `maxHeightRef` update: `decimalNumber !== null && decimalNumber > max`
(`NaN > max` is false in JS). -/
def bumpMaxHeight (n : JsNum) (mh : Int) : Int :=
  match n with
  | .int v => if v > mh then v else mh
  | _ => mh

/-- The non-block (`uncle`/`workshare`) branch of `addItem`. -/
def addItemNonBlock (cap now : Nat) (typ hash : String)
    (parentHash number order includingHash : Option String) (s : St) : AddOut :=
  match s.items.findIdx? (fun it => decide (it.fullHash = hash ∧ it.type = typ)) with
  | some idx =>
    if jsTruthyStr includingHash then
      match s.items[idx]? with
      | some old =>
        ⟨{ s with items := s.items.set idx { old with includedIn := includingHash } }, []⟩
      | none => ⟨s, []⟩
    else ⟨s, []⟩
  | none =>
    let newItem := mkNonBlockItem typ hash parentHash number order includingHash now
    let mh := bumpMaxHeight newItem.number s.maxHeight
    let updatedItems := List.insertionSort numAscR (s.items ++ [newItem])
    let checked := missingCheck typ updatedItems s.missing s.fetching newItem.fullParentHash
    ⟨⟨cleanupOldItems cap updatedItems, checked.1, s.fetching, mh⟩, checked.2⟩

/-- The representation list (`itemType`, parent) dictated by the decoded
`order` of a raw block. `headerParentHashes` is the (possibly short) array
`header.parentHash`; out-of-range indexing yields `undefined`, i.e. `none`. -/
def blockReps (orderNum : JsNum) (parentHash : Option String)
    (hps : List String) : List (String × Option String) :=
  if orderNum = .int 0 then
    [("primeBlock", hps[0]?), ("regionBlock", hps[1]?), ("block", parentHash)]
  else if orderNum = .int 1 then
    [("regionBlock", jsOrOpt hps[1]? hps[0]?), ("block", parentHash)]
  else
    [("block", parentHash)]

/-- The item built by `addRepresentation` for one representation. -/
def mkBlockItem (blockType hash : String) (parent : Option String)
    (decimalNumber : JsNum) (order : Option String) (now k : Nat) : Item :=
  { id := blockType ++ "-" ++ hash.take 8 ++ "-" ++ toString now ++ "-" ++ toString k
    type := blockType
    hash := hash.take 8
    fullHash := hash
    parentHash := shortOf parent
    fullParentHash := parent
    number := decimalNumber
    order := order
    timestamp := now
    includedIn := none }

/-- One `addRepresentation` call of the block path: skip when an item with
the same (`fullHash`, `itemType`) is already in `prev`, otherwise create the
item and advance the id counter. -/
def repStep (prev : List Item) (hash : String) (dn : JsNum)
    (order : Option String) (now : Nat)
    (acc : List Item × Nat) (bp : String × Option String) : List Item × Nat :=
  if prev.any (fun it => decide (it.fullHash = hash ∧ it.type = bp.1)) then acc
  else (acc.1 ++ [mkBlockItem bp.1 hash bp.2 dn order now acc.2], acc.2 + 1)

/-- The `newItems` array accumulated by the block path: one item per
representation whose (`fullHash`, `itemType`) is not already present, with
the id counter advancing only on actual creation. -/
def blockNewItems (prev : List Item) (hash : String)
    (parentHash number order : Option String) (hps : List String)
    (now : Nat) : List Item :=
  ((blockReps (parseIntHex order) parentHash hps).foldl
    (repStep prev hash (parseIntHex number) order now) (([] : List Item), 0)).1

/-- The block branch of `addItem`: multi-representation expansion,
deduplication, sort, ledger checks and eviction. -/
def addItemBlock (cap now : Nat) (hash : String)
    (parentHash number order : Option String) (hps : List String)
    (s : St) : AddOut :=
  let newItems := blockNewItems s.items hash parentHash number order hps now
  if newItems = [] then ⟨s, []⟩
  else
    let mh := bumpMaxHeight (parseIntHex number) s.maxHeight
    let updatedItems := List.insertionSort numAscR (s.items ++ newItems)
    let checked := missingCheckAll newItems updatedItems s.missing s.fetching
    ⟨⟨cleanupOldItems cap updatedItems, checked.1, s.fetching, mh⟩, checked.2⟩

/-- First hook variant's `addItem`, as a state transition. `cap` is the
current value of `maxItemsToKeepRef`, `now` the value of `Date.now()`. -/
def addItem (cap now : Nat) (typ hash : String)
    (parentHash number order : Option String) (hps : List String)
    (includingHash : Option String) (s : St) : AddOut :=
  if typ ≠ "block" then
    addItemNonBlock cap now typ hash parentHash number order includingHash s
  else
    addItemBlock cap now hash parentHash number order hps s

/-- The fields of a fetched block response actually consumed by
`fetchMissingParent` (`data.result` with a `woHeader`). -/
structure BlockData where
  hash : String
  parentHash : Option String
  number : Option String
  order : Option String
  headerParentHashes : List String
deriving DecidableEq, Repr

/-- Abstract outcome of the network round-trip inside `fetchMissingParent`. -/
inductive FetchOutcome where
  | httpNotOk : FetchOutcome
  | jsonError : FetchOutcome
  | rpcError : FetchOutcome
  | noBlock : FetchOutcome
  | success : BlockData → FetchOutcome
deriving DecidableEq, Repr

/-- The proactive grandparent marking on the success path:
`if (h && h !== zeroHash) missingParentsRef.set(h, true)`. -/
def markMissing (missing : List String) (h : Option String) : List String :=
  match h with
  | none => missing
  | some p => if p ≠ "" ∧ p ≠ zeroHash then setAdd missing p else missing

/-- `fetchMissingParent` as a state transition over an abstract outcome:
early return when already in flight, otherwise add to the in-flight set, on
success mark the fetched block's own parents in the ledger and insert the
block (nested fetch requests join the in-flight set), and in all cases
remove `parentHash` from the in-flight set on completion (the `finally`). -/
def fetchMissingParent (cap now : Nat) (parentHash : String)
    (o : FetchOutcome) (s : St) : St :=
  if parentHash ∈ s.fetching then s
  else
    let s1 : St := { s with fetching := setAdd s.fetching parentHash }
    let s2 : St :=
      match o with
      | .success bd =>
        let m1 := markMissing s1.missing bd.parentHash
        let m2 := markMissing m1 bd.headerParentHashes[0]?
        let m3 := markMissing m2 bd.headerParentHashes[1]?
        let r := addItemBlock cap now bd.hash bd.parentHash bd.number bd.order
          bd.headerParentHashes { s1 with missing := m3 }
        { r.st with fetching := r.requests.foldl setAdd r.st.fetching }
      | _ => s1
    { s2 with fetching := s2.fetching.filter (fun h => h ≠ parentHash) }

/-- Whether one item's parent reference is resolved in state `s`: the parent
is absent/empty, the all-zero sentinel, matched by a same-(hash,type) item in
the store, or recorded in the missing-parents ledger. -/
def parentCoveredB (s : St) (i : Item) : Bool :=
  match i.fullParentHash with
  | none => true
  | some p =>
    p = "" ∨ p = zeroHash
      ∨ s.items.any (fun j => decide (j.fullHash = p ∧ j.type = i.type))
      ∨ p ∈ s.missing

/-- Contents of an item with the generated `id` and insertion `timestamp`
stripped, the equality measure used when comparing stores up to re-insertion. -/
structure ItemContents where
  type : String
  fullHash : String
  fullParentHash : Option String
  number : JsNum
  order : Option String
  includedIn : Option String
deriving DecidableEq, Repr

/-- Project an item to its `id`/`timestamp`-independent contents. -/
def itemContents (i : Item) : ItemContents :=
  ⟨i.type, i.fullHash, i.fullParentHash, i.number, i.order, i.includedIn⟩

/-! ### Concrete execution traces used by the counterexamples -/

/-- Cap 2: three workshares with heights 3, 1, 2 arriving at times 1 < 2 < 3. -/
def c1s1 : St := (addItem 2 1 "workshare" "hA" none (some "0x3") none [] none St.empty).st

def c1s2 : St := (addItem 2 2 "workshare" "hB" none (some "0x1") none [] none c1s1).st

def c1s3 : St := (addItem 2 3 "workshare" "hC" none (some "0x2") none [] none c1s2).st

/-- An uncle first reported as included in block `0xAA`... -/
def c2s1 : St := (addItem 10 1 "uncle" "u1" none none none [] (some "0xAA") St.empty).st

/-- ...then re-reported with a different including block `0xBB`. -/
def c2s2 : St := (addItem 10 2 "uncle" "u1" none none none [] (some "0xBB") c2s1).st

/-- Three workshares inserted while the cap is 5. -/
def c4s1 : St := (addItem 5 1 "workshare" "w1" none none none [] none St.empty).st

def c4s2 : St := (addItem 5 2 "workshare" "w2" none none none [] none c4s1).st

def c4s3 : St := (addItem 5 3 "workshare" "w3" none none none [] none c4s2).st

/-- The cap is lowered to 2, then `w1` is re-reported with an including hash:
the update-in-place path runs and applies no eviction. -/
def c4s4 : AddOut := addItem 2 9 "workshare" "w1" none none none [] (some "0xI") c4s3

/-- Cap 2: zone chain `hP <- hC <- hD` arriving in order at times 1, 2, 3;
each parent is present when its child is inserted, so no ledger entry is ever
written, and the third insertion evicts `hP`. -/
def c5s1 : St :=
  (addItem 2 1 "block" "hP" (some zeroHash) (some "0x1") (some "0x2") [] none St.empty).st

def c5s2 : St :=
  (addItem 2 2 "block" "hC" (some "hP") (some "0x2") (some "0x2") [] none c5s1).st

def c5s3 : St :=
  (addItem 2 3 "block" "hD" (some "hC") (some "0x3") (some "0x2") [] none c5s2).st

/-- Cap 2: a prime-order (order 0) block notification inserted once... -/
def c6s1 : St :=
  (addItem 2 1 "block" "hX" (some "0xZ") (some "0x1") (some "0x0") ["0xP", "0xR"] none St.empty).st

/-- ...and the identical notification inserted again at time 2. -/
def c6s2 : St :=
  (addItem 2 2 "block" "hX" (some "0xZ") (some "0x1") (some "0x0") ["0xP", "0xR"] none c6s1).st

/-- An item with the strictly smallest timestamp but the largest height. -/
def c7big : Item :=
  { id := "big", type := "block", hash := "big", fullHash := "big"
    parentHash := none, fullParentHash := none, number := .int 1000
    order := none, timestamp := 0, includedIn := none }

/-- 300 height-0 items with timestamps 300 down to 1. -/
def c7small : List Item :=
  (List.range 300).map fun k =>
    { id := "s", type := "block", hash := "s", fullHash := toString k
      parentHash := none, fullParentHash := none, number := .int 0
      order := none, timestamp := 300 - k, includedIn := none }

/-- A 301-item list exceeding the second variant's fixed cap of 300. -/
def c7list : List Item := c7big :: c7small

/-- The single item held by `c2s1`, written out. -/
def c2item : Item :=
  { id := "uncle-u1-1", type := "uncle", hash := "u1", fullHash := "u1"
    parentHash := none, fullParentHash := none, number := .null
    order := none, timestamp := 1, includedIn := some "0xAA" }

/-- A zone block notification whose hex `number` field is null. -/
def c8s1 : St :=
  (addItem 10 1 "block" "hN" (some "0xZ") none (some "0x2") [] none St.empty).st

/-! ### Helper lemmas -/

theorem cleanup_length_le (cap : Nat) (l : List Item) :
    (cleanupOldItems cap l).length ≤ cap := by
  unfold cleanupOldItems
  split
  · assumption
  · simp [List.length_take]

theorem cleanup_eq_of_le {cap : Nat} {l : List Item} (h : l.length ≤ cap) :
    cleanupOldItems cap l = l := by
  unfold cleanupOldItems
  exact if_pos h

theorem mem_setAdd_self (l : List String) (x : String) : x ∈ setAdd l x := by
  unfold setAdd
  split
  · assumption
  · simp

theorem mem_setAdd_of_mem {l : List String} {y : String} (x : String) (h : y ∈ l) :
    y ∈ setAdd l x := by
  unfold setAdd
  split
  · exact h
  · simp [h]

theorem not_mem_filter_ne (l : List String) (x : String) :
    x ∉ l.filter (fun h => h ≠ x) := by
  intro hx
  have := (List.mem_filter.mp hx).2
  simp at this

theorem filter_ne_of_not_mem {l : List String} {x : String} (h : x ∉ l) :
    l.filter (fun y => y ≠ x) = l := by
  apply List.filter_eq_self.mpr
  intro a ha
  simp only [ne_eq, decide_eq_true_eq]
  intro he
  exact h (he ▸ ha)

theorem mem_missingCheck_fst {typ : String} {u : List Item}
    {missing fetching : List String} {fph : Option String} {x : String}
    (hx : x ∈ missing) : x ∈ (missingCheck typ u missing fetching fph).1 := by
  unfold missingCheck
  cases fph with
  | none => exact hx
  | some p =>
    dsimp only
    split
    · split
      · exact hx
      · exact mem_setAdd_of_mem _ hx
    · exact hx

theorem mem_missingCheckAll_fst {u : List Item} {fetching : List String} :
    ∀ (ns : List Item) (missing : List String) (x : String), x ∈ missing →
      x ∈ (missingCheckAll ns u missing fetching).1 := by
  have aux : ∀ (ns : List Item) (acc : List String × List String) (x : String),
      x ∈ acc.1 →
      x ∈ (ns.foldl (fun acc ni =>
          let done := missingCheck ni.type u acc.1 fetching ni.fullParentHash
          (done.1, acc.2 ++ done.2)) acc).1 := by
    intro ns
    induction ns with
    | nil => intro acc x hx; exact hx
    | cons n ns ih =>
      intro acc x hx
      exact ih _ x (mem_missingCheck_fst hx)
  intro ns missing x hx
  exact aux ns (missing, []) x hx

theorem addItemBlock_missing_mono (cap now : Nat) (hash : String)
    (parentHash number order : Option String) (hps : List String) (s : St)
    {x : String} (hx : x ∈ s.missing) :
    x ∈ (addItemBlock cap now hash parentHash number order hps s).st.missing := by
  unfold addItemBlock
  dsimp only
  split
  · exact hx
  · exact mem_missingCheckAll_fst _ _ _ hx

theorem mem_markMissing {missing : List String} {h : Option String} {x : String}
    (hx : x ∈ missing) : x ∈ markMissing missing h := by
  unfold markMissing
  cases h with
  | none => exact hx
  | some p =>
    dsimp only
    split
    · exact mem_setAdd_of_mem _ hx
    · exact hx

/-! ### C1 — store ordering after mutations -/

/-- C1 counterexample: after three workshare insertions at cap 2 (heights
3, 1, 2 at times 1 < 2 < 3) the third `addItem` call triggers eviction, and
the returned collection has heights `[2, 1]` — not ascending `number` order. -/
theorem sortInvariant_broken_by_eviction :
    c1s3.items.map (fun i => jsOr0 i.number) = [2, 1]
      ∧ ¬ List.Sorted numAscR c1s3.items := by decide

/-! ### C4 — store size bound after addItem -/

/-- C4 counterexample: three workshares are inserted at cap 5, the cap is
then lowered to 2, and `w1` is re-reported with an including hash; the
update-in-place path applies no eviction, so the call returns 3 items even
though the cap configured at the time of the call is 2. -/
theorem update_path_skips_eviction_cap :
    c4s4.st.items.length = 3 ∧ ¬ c4s4.st.items.length ≤ 2 := by decide

/-- C4 amended, path by path: an `addItem` call that inserts (fresh non-block
item, or block expansion producing at least one representation) runs
`cleanupOldItems` and ends with at most `cap` items; an update-in-place or
no-op call on an existing non-block item applies no eviction and leaves the
collection length unchanged, even above the cap; a block call all of whose
representations already exist returns the state untouched. -/
theorem addItem_length_discipline (cap now : Nat) (typ hash : String)
    (parentHash number order includingHash : Option String) (hps : List String)
    (s : St) :
    (typ ≠ "block" →
        s.items.findIdx? (fun it => decide (it.fullHash = hash ∧ it.type = typ)) = none →
        (addItem cap now typ hash parentHash number order hps includingHash
          s).st.items.length ≤ cap)
      ∧ (typ = "block" →
          blockNewItems s.items hash parentHash number order hps now ≠ [] →
          (addItem cap now typ hash parentHash number order hps includingHash
            s).st.items.length ≤ cap)
      ∧ (typ ≠ "block" →
          (s.items.findIdx? (fun it => decide (it.fullHash = hash ∧ it.type = typ))).isSome →
          (addItem cap now typ hash parentHash number order hps includingHash
            s).st.items.length = s.items.length)
      ∧ (typ = "block" →
          blockNewItems s.items hash parentHash number order hps now = [] →
          (addItem cap now typ hash parentHash number order hps includingHash s).st = s) := by
  refine ⟨?_, ?_, ?_, ?_⟩
  · intro htyp hfind
    unfold addItem addItemNonBlock
    rw [if_pos htyp, hfind]
    dsimp only
    exact cleanup_length_le _ _
  · intro htyp hne
    unfold addItem addItemBlock
    rw [if_neg (by simp [htyp])]
    dsimp only
    rw [if_neg hne]
    dsimp only
    exact cleanup_length_le _ _
  · intro htyp hfound
    rcases Option.isSome_iff_exists.mp hfound with ⟨idx, hidx⟩
    unfold addItem addItemNonBlock
    rw [if_pos htyp, hidx]
    dsimp only
    split
    · split
      · simp [List.length_set]
      · rfl
    · rfl
  · intro htyp hnil
    unfold addItem addItemBlock
    rw [if_neg (by simp [htyp])]
    dsimp only
    rw [if_pos hnil]

/-- C4 amended witness: the very call of the counterexample trace (cap
lowered to 2, update-in-place on `w1`) preserves the length 3. -/
theorem addItem_length_discipline_witness :
    (addItem 2 9 "workshare" "w1" none none none [] (some "0xI") c4s3).st.items.length
      = c4s3.items.length :=
  (addItem_length_discipline 2 9 "workshare" "w1" none none none (some "0xI") [] c4s3).2.2.1
    (by decide) (by decide)

/-! ### C2 — immutability of a set includedIn -/

/-- C2 counterexample: an uncle whose `includedIn` was set to `0xAA` is
re-reported with including hash `0xBB`, and the update-in-place path
overwrites `includedIn` away from `0xAA`. -/
theorem includedIn_overwritten_by_new_hash :
    c2s1.items.map Item.includedIn = [some "0xAA"]
      ∧ c2s2.items.map Item.includedIn = [some "0xBB"]
      ∧ ("0xAA" : String) ≠ "0xBB" := by decide

/-! ### C6 — idempotent re-ingestion -/

/-- C6 counterexample: at cap 2 a prime-order block expands to three
representations, eviction inside the same call drops the zone one; inserting
the identical notification again re-adds the zone representation and evicts
differently, so the collections after one and after two insertions differ
even ignoring `id` and `timestamp`. -/
theorem reinsertion_after_eviction_differs :
    c6s2.items.map itemContents ≠ c6s1.items.map itemContents := by decide

/-! ### C8 — numeric decoding -/

/-- C8 counterexample: the block path decodes `number` unconditionally, so a
block notification with a null `number` yields an item whose `number` is
`NaN`, not `null`. -/
theorem block_missing_number_is_nan :
    c8s1.items.map Item.number = [JsNum.nan] ∧ JsNum.nan ≠ JsNum.null := by decide

/-! ### C7 — eviction ranking -/

set_option maxRecDepth 8000 in
/-- C7 counterexample: the second hook variant's `cleanupOldItems` ranks by
descending `number` first, so on a 301-item list the item with the strictly
smallest timestamp (but largest height) survives eviction instead of being
dropped, contradicting the claimed timestamp-primary ranking for that variant. -/
theorem variant2_eviction_keeps_low_timestamp :
    c7big ∈ cleanupOldItems2 c7list
      ∧ (cleanupOldItems2 c7list).length = 300
      ∧ ∀ j ∈ c7list, j ≠ c7big → c7big.timestamp < j.timestamp := by decide

/-! ### C10 — frame property of the update-in-place path -/

/-- C10: when a non-block item with the same (`fullHash`, `type`) already
exists and a non-empty including hash is supplied, `addItem` only rewrites
that item's `includedIn` in place: same length, same order, every other
index unchanged, and no ledger/fetch-set/eviction activity. -/
theorem update_in_place_frame (cap now : Nat) (typ hash : String)
    (parentHash number order : Option String) (hps : List String) (h : String)
    (s : St) (idx : Nat) (old : Item)
    (htyp : typ ≠ "block")
    (hidx : s.items.findIdx? (fun it => decide (it.fullHash = hash ∧ it.type = typ))
        = some idx)
    (hold : s.items[idx]? = some old)
    (hh : h ≠ "") :
    addItem cap now typ hash parentHash number order hps (some h) s
        = ⟨{ s with items := s.items.set idx { old with includedIn := some h } }, []⟩
      ∧ (addItem cap now typ hash parentHash number order hps (some h) s).st.items.length
          = s.items.length
      ∧ ∀ j, j ≠ idx →
          (addItem cap now typ hash parentHash number order hps (some h) s).st.items[j]?
            = s.items[j]? := by
  have hmain : addItem cap now typ hash parentHash number order hps (some h) s
      = ⟨{ s with items := s.items.set idx { old with includedIn := some h } }, []⟩ := by
    unfold addItem addItemNonBlock
    rw [if_pos htyp, hidx]
    simp [jsTruthyStr, hh, hold]
  refine ⟨hmain, ?_, ?_⟩
  · rw [hmain]
    simp [List.length_set]
  · intro j hj
    rw [hmain]
    simp [List.getElem?_set_ne (Ne.symm hj)]

/-- C10 witness. -/
theorem update_in_place_frame_witness :
    addItem 7 9 "uncle" "u1" none none none [] (some "0xI") c2s1
        = ⟨{ c2s1 with
              items := c2s1.items.set 0 { c2item with includedIn := some "0xI" } }, []⟩ := by
  have hfind : c2s1.items.findIdx?
      (fun it => decide (it.fullHash = "u1" ∧ it.type = "uncle")) = some 0 := by decide
  have hold : c2s1.items[0]? = some c2item := by decide
  exact (update_in_place_frame 7 9 "uncle" "u1" none none none [] "0xI" c2s1 0
    c2item (by decide) hfind hold (by decide)).1

/-- C2 amended: once a non-block item's `includedIn` holds a non-null hash,
no later `addItem` for the same (`fullHash`, `type`) ever makes it null: a
call without an including hash leaves the store untouched, and a call with
one overwrites the field with that (non-null) hash. -/
theorem includedIn_stays_nonNull (cap now : Nat) (typ hash : String)
    (parentHash number order includingHash : Option String) (hps : List String)
    (s : St) (idx : Nat) (old : Item) (H : String)
    (htyp : typ ≠ "block")
    (hidx : s.items.findIdx? (fun it => decide (it.fullHash = hash ∧ it.type = typ))
        = some idx)
    (hold : s.items[idx]? = some old)
    (hH : old.includedIn = some H) :
    ∃ j, (addItem cap now typ hash parentHash number order hps includingHash s).st.items[idx]?
        = some j ∧ j.includedIn.isSome := by
  unfold addItem addItemNonBlock
  rw [if_pos htyp, hidx]
  dsimp only
  by_cases ht : jsTruthyStr includingHash = true
  · rw [if_pos ht, hold]
    have hlt : idx < s.items.length := by
      rcases List.getElem?_eq_some_iff.mp hold with ⟨h, _⟩
      exact h
    refine ⟨{ old with includedIn := includingHash }, ?_, ?_⟩
    · simp [List.getElem?_set_self hlt]
    · cases includingHash with
      | none => simp [jsTruthyStr] at ht
      | some str => simp
  · rw [if_neg ht]
    exact ⟨old, hold, by simp [hH]⟩

/-- C2 amended witness. -/
theorem includedIn_stays_nonNull_witness :
    ∃ j, (addItem 7 9 "uncle" "u1" none none none [] none c2s1).st.items[0]?
        = some j ∧ j.includedIn.isSome := by
  exact includedIn_stays_nonNull 7 9 "uncle" "u1" none none none none [] c2s1 0
    c2item "0xAA" (by decide) (by decide) (by decide) (by decide)

/-! ### C8 amended — numeric decoding on the non-block path -/

/-- C8 amended: on the uncle/workshare path a missing/null `number` yields an
item with `number = null` (never zero), a present "0x0" decodes to 0 (never
null); on the block path `parseInt` runs unconditionally, so a null `number`
decodes to `NaN`. -/
theorem number_decoding_amended (cap now : Nat) (typ hash : String)
    (parentHash order includingHash : Option String) (hps : List String) (s : St)
    (htyp : typ ≠ "block")
    (hfind : s.items.findIdx? (fun it => decide (it.fullHash = hash ∧ it.type = typ))
        = none)
    (hcap : s.items.length + 1 ≤ cap) :
    (∃ i ∈ (addItem cap now typ hash parentHash none order hps includingHash s).st.items,
        i.fullHash = hash ∧ i.type = typ ∧ i.number = JsNum.null)
      ∧ nonBlockNumber (some "0x0") = JsNum.int 0
      ∧ nonBlockNumber none = JsNum.null
      ∧ parseIntHex none = JsNum.nan := by
  refine ⟨?_, by decide, by decide, by decide⟩
  unfold addItem addItemNonBlock
  rw [if_pos htyp, hfind]
  dsimp only
  have hlen : (List.insertionSort numAscR
      (s.items ++ [mkNonBlockItem typ hash parentHash none order includingHash now])).length
        ≤ cap := by
    rw [List.length_insertionSort, List.length_append]
    simpa using hcap
  rw [cleanup_eq_of_le hlen]
  refine ⟨mkNonBlockItem typ hash parentHash none order includingHash now, ?_, rfl, rfl, rfl⟩
  rw [List.mem_insertionSort]
  simp

/-- C8 amended witness. -/
theorem number_decoding_amended_witness :
    (∃ i ∈ (addItem 5 3 "workshare" "w9" none none none [] none St.empty).st.items,
        i.fullHash = "w9" ∧ i.type = "workshare" ∧ i.number = JsNum.null)
      ∧ nonBlockNumber (some "0x0") = JsNum.int 0
      ∧ nonBlockNumber none = JsNum.null
      ∧ parseIntHex none = JsNum.nan :=
  number_decoding_amended 5 3 "workshare" "w9" none none none [] St.empty
    (by decide) (by decide) (by decide)

/-! ### C5 — store-or-ledger coverage of parent references -/

/-- C5 counterexample: in the reachable quiescent state `c5s3` (three zone
blocks inserted in parent-first order at cap 2, no fetch ever started) the
eviction of `hP` leaves `hC`'s parent reference neither matched in the store
nor recorded in the missing-parents ledger. -/
theorem orphan_after_eviction :
    c5s3.fetching = [] ∧ c5s3.missing = []
      ∧ (∃ i ∈ c5s3.items, i.fullParentHash = some "hP")
      ∧ ¬ (∀ i ∈ c5s3.items, parentCoveredB c5s3 i = true) := by decide

/-! ### C5 amended — locality of the missing-parent guarantee -/

/-- C5 amended: the ledger guarantee is local to the inserting call — right
after a non-block insertion whose parent hash `p` is non-empty, non-sentinel
and distinct from the inserted hash, either a same-type item with hash `p`
was already in the store, or `p` is in the ledger after the call, or `p` was
already in the in-flight fetch set.  (The C5 counterexample shows eviction
does not preserve this.) -/
theorem missingParent_check_local (cap now : Nat) (typ hash p : String)
    (number order includingHash : Option String) (hps : List String) (s : St)
    (htyp : typ ≠ "block")
    (hfind : s.items.findIdx? (fun it => decide (it.fullHash = hash ∧ it.type = typ))
        = none)
    (hp : p ≠ "") (hpz : p ≠ zeroHash) (hph : p ≠ hash) :
    (∃ j ∈ s.items, j.fullHash = p ∧ j.type = typ)
      ∨ p ∈ (addItem cap now typ hash (some p) number order hps includingHash s).st.missing
      ∨ p ∈ s.fetching := by
  unfold addItem addItemNonBlock
  rw [if_pos htyp, hfind]
  dsimp only
  rw [show (mkNonBlockItem typ hash (some p) number order includingHash now).fullParentHash
      = some p from rfl]
  simp only [missingCheck]
  by_cases hm : p ∈ s.missing
  · rw [if_neg (by tauto)]
    exact Or.inr (Or.inl hm)
  · by_cases hf : p ∈ s.fetching
    · rw [if_neg (by tauto)]
      exact Or.inr (Or.inr hf)
    · rw [if_pos ⟨hp, hpz, hm, hf⟩]
      by_cases he : (List.insertionSort numAscR (s.items
          ++ [mkNonBlockItem typ hash (some p) number order includingHash now])).any
          (fun it => decide (it.fullHash = p ∧ it.type = typ)) = true
      · rw [if_pos he]
        left
        rcases List.any_eq_true.mp he with ⟨it, hmem, hit⟩
        rw [List.mem_insertionSort] at hmem
        rcases List.mem_append.mp hmem with hin | hnew
        · exact ⟨it, hin, by simpa using hit⟩
        · exfalso
          have : it = mkNonBlockItem typ hash (some p) number order includingHash now := by
            simpa using hnew
          rw [this] at hit
          have : hash = p := (by simpa using hit : hash = p ∧ _).1
          exact hph this.symm
      · rw [if_neg he]
        exact Or.inr (Or.inl (mem_setAdd_self _ _))

/-! ### C3 — multi-representation expansion -/

/-- C3: for a raw block whose hash is absent from the store, decoded order 0
adds exactly the three representations primeBlock/regionBlock/block with
parents `headerParentHashes[0]`, `headerParentHashes[1]` and the zone parent;
decoded order 1 adds regionBlock (with the `[1] || [0]` fallback parent) and
block; decoded order ≥ 2 adds the zone block only — all sharing `fullHash`. -/
theorem blockExpansion_by_order (prev : List Item) (hash : String)
    (parentHash number order : Option String) (hps : List String) (now : Nat)
    (hfresh : ∀ i ∈ prev, i.fullHash ≠ hash) :
    (parseIntHex order = JsNum.int 0 →
        (blockNewItems prev hash parentHash number order hps now).map
            (fun i => (i.type, i.fullHash, i.fullParentHash))
          = [("primeBlock", hash, hps[0]?), ("regionBlock", hash, hps[1]?),
             ("block", hash, parentHash)])
      ∧ (parseIntHex order = JsNum.int 1 →
          (blockNewItems prev hash parentHash number order hps now).map
              (fun i => (i.type, i.fullHash, i.fullParentHash))
            = [("regionBlock", hash, jsOrOpt hps[1]? hps[0]?), ("block", hash, parentHash)])
      ∧ (∀ n : Int, 2 ≤ n → parseIntHex order = JsNum.int n →
          (blockNewItems prev hash parentHash number order hps now).map
              (fun i => (i.type, i.fullHash, i.fullParentHash))
            = [("block", hash, parentHash)]) := by
  have hany : ∀ t : String, ¬ ∃ x ∈ prev, x.fullHash = hash ∧ x.type = t := by
    rintro t ⟨x, hx, hfh, -⟩
    exact hfresh x hx hfh
  refine ⟨?_, ?_, ?_⟩
  · intro h0
    unfold blockNewItems blockReps
    rw [h0, if_pos rfl]
    simp [repStep, hany, mkBlockItem]
  · intro h1
    unfold blockNewItems blockReps
    rw [h1, if_neg (by intro h; injection h; omega), if_pos rfl]
    simp [repStep, hany, mkBlockItem]
  · intro n hn h2
    unfold blockNewItems blockReps
    rw [h2, if_neg (by intro h; injection h with h; omega),
      if_neg (by intro h; injection h with h; omega)]
    simp [repStep, hany, mkBlockItem]

/-- C3 witness (order 0, fresh store). -/
theorem blockExpansion_by_order_witness :
    (parseIntHex (some "0x0") = JsNum.int 0 →
        (blockNewItems [] "h" (some "zp") (some "0x5") (some "0x0") ["a", "b"] 7).map
            (fun i => (i.type, i.fullHash, i.fullParentHash))
          = [("primeBlock", "h", (["a", "b"] : List String)[0]?),
             ("regionBlock", "h", (["a", "b"] : List String)[1]?),
             ("block", "h", some "zp")])
      ∧ (parseIntHex (some "0x0") = JsNum.int 1 →
          (blockNewItems [] "h" (some "zp") (some "0x5") (some "0x0") ["a", "b"] 7).map
              (fun i => (i.type, i.fullHash, i.fullParentHash))
            = [("regionBlock", "h", jsOrOpt (["a", "b"] : List String)[1]?
                  (["a", "b"] : List String)[0]?),
               ("block", "h", some "zp")])
      ∧ (∀ n : Int, 2 ≤ n → parseIntHex (some "0x0") = JsNum.int n →
          (blockNewItems [] "h" (some "zp") (some "0x5") (some "0x0") ["a", "b"] 7).map
              (fun i => (i.type, i.fullHash, i.fullParentHash))
            = [("block", "h", some "zp")]) :=
  blockExpansion_by_order [] "h" (some "zp") (some "0x5") (some "0x0") ["a", "b"] 7
    (by decide)

/-- C5 amended witness. -/
theorem missingParent_check_local_witness :
    (∃ j ∈ St.empty.items, j.fullHash = "p1" ∧ j.type = "workshare")
      ∨ "p1" ∈ (addItem 5 3 "workshare" "w9" (some "p1") none none [] none St.empty).st.missing
      ∨ "p1" ∈ St.empty.fetching :=
  missingParent_check_local 5 3 "workshare" "w9" "p1" none none none [] St.empty
    (by decide) (by decide) (by decide) (by decide) (by decide)

/-! ### C7 amended — first-variant eviction ranks by recency -/

/-- C7 amended (first hook variant): with cap 2 and three items of strictly
increasing timestamps, eviction keeps the two most recently inserted items
and drops the oldest, regardless of their `number` fields. -/
theorem cleanup_keeps_most_recent (a b c : Item)
    (hab : a.timestamp < b.timestamp) (hbc : b.timestamp < c.timestamp) :
    cleanupOldItems 2 [a, b, c] = [c, b] := by
  have key : ∀ x y : Item, x.timestamp < y.timestamp → ¬ relevanceR x y := by
    intro x y hxy
    unfold relevanceR relevanceCmp
    dsimp only
    have hd : (y.timestamp : Int) - (x.timestamp : Int) ≠ 0 := by omega
    rw [if_pos hd]
    omega
  have hac : a.timestamp < c.timestamp := lt_trans hab hbc
  have h2 : List.orderedInsert relevanceR b [c] = [c, b] := by
    show (if relevanceR b c then b :: [c] else c :: List.orderedInsert relevanceR b [])
        = [c, b]
    rw [if_neg (key b c hbc)]
    rfl
  have h3 : List.orderedInsert relevanceR a [c, b] = [c, b, a] := by
    show (if relevanceR a c then a :: [c, b] else c :: List.orderedInsert relevanceR a [b])
        = [c, b, a]
    rw [if_neg (key a c hac)]
    show c :: (if relevanceR a b then a :: [b] else b :: List.orderedInsert relevanceR a [])
        = [c, b, a]
    rw [if_neg (key a b hab)]
    rfl
  unfold cleanupOldItems
  rw [if_neg (by simp)]
  show (List.orderedInsert relevanceR a
      (List.orderedInsert relevanceR b (List.orderedInsert relevanceR c []))).take 2 = [c, b]
  rw [show List.orderedInsert relevanceR c [] = [c] from rfl, h2, h3]
  rfl

/-- C7 amended witness: heights deliberately opposed to the timestamps. -/
theorem cleanup_keeps_most_recent_witness :
    cleanupOldItems 2
        [{ c7big with timestamp := 1 },
         { c7big with timestamp := 2, number := .int 5 },
         { c7big with timestamp := 3, number := .int 0 }]
      = [{ c7big with timestamp := 3, number := .int 0 },
         { c7big with timestamp := 2, number := .int 5 }] :=
  cleanup_keeps_most_recent _ _ _ (by decide) (by decide)

/-! ### C9 — fetchMissingParent state discipline -/

/-- C9: for a hash not already in flight, `fetchMissingParent` always removes
the hash from the in-flight set on completion (success and every failure
path), never removes any missing-parents ledger entry, and on failure changes
nothing else — in particular it issues no retry (the in-flight set returns to
exactly its prior value). -/
theorem fetchMissingParent_state_discipline (cap now : Nat) (parentHash : String)
    (o : FetchOutcome) (s : St)
    (hnf : parentHash ∉ s.fetching) :
    parentHash ∉ (fetchMissingParent cap now parentHash o s).fetching
      ∧ (∀ m ∈ s.missing, m ∈ (fetchMissingParent cap now parentHash o s).missing)
      ∧ ((∀ bd, o ≠ FetchOutcome.success bd) →
          (fetchMissingParent cap now parentHash o s).items = s.items
            ∧ (fetchMissingParent cap now parentHash o s).missing = s.missing
            ∧ (fetchMissingParent cap now parentHash o s).fetching = s.fetching) := by
  unfold fetchMissingParent
  rw [if_neg hnf]
  refine ⟨?_, ?_, ?_⟩
  · exact not_mem_filter_ne _ _
  · intro m hm
    dsimp only
    cases o with
    | success bd =>
      dsimp only
      exact addItemBlock_missing_mono _ _ _ _ _ _ _ _
        (mem_markMissing (mem_markMissing (mem_markMissing hm)))
    | httpNotOk => exact hm
    | jsonError => exact hm
    | rpcError => exact hm
    | noBlock => exact hm
  · intro hno
    have hfet : (setAdd s.fetching parentHash).filter (fun y => y ≠ parentHash)
        = s.fetching := by
      unfold setAdd
      rw [if_neg hnf, List.filter_append, filter_ne_of_not_mem hnf]
      simp
    cases o with
    | success bd => exact absurd rfl (hno bd)
    | httpNotOk => exact ⟨rfl, rfl, hfet⟩
    | jsonError => exact ⟨rfl, rfl, hfet⟩
    | rpcError => exact ⟨rfl, rfl, hfet⟩
    | noBlock => exact ⟨rfl, rfl, hfet⟩

/-- C9 witness (failure outcome on an idle state). -/
theorem fetchMissingParent_state_discipline_witness :
    "p" ∉ (fetchMissingParent 5 1 "p" FetchOutcome.httpNotOk St.empty).fetching
      ∧ (∀ m ∈ St.empty.missing,
          m ∈ (fetchMissingParent 5 1 "p" FetchOutcome.httpNotOk St.empty).missing)
      ∧ ((∀ bd, FetchOutcome.httpNotOk ≠ FetchOutcome.success bd) →
          (fetchMissingParent 5 1 "p" FetchOutcome.httpNotOk St.empty).items = St.empty.items
            ∧ (fetchMissingParent 5 1 "p" FetchOutcome.httpNotOk St.empty).missing
                = St.empty.missing
            ∧ (fetchMissingParent 5 1 "p" FetchOutcome.httpNotOk St.empty).fetching
                = St.empty.fetching) :=
  fetchMissingParent_state_discipline 5 1 "p" FetchOutcome.httpNotOk St.empty (by decide)

/-! ### Fold lemmas for the block-expansion accumulator -/

theorem repStep_fst_mono (prev : List Item) (hash : String) (dn : JsNum)
    (order : Option String) (now : Nat) :
    ∀ (reps : List (String × Option String)) (acc : List Item × Nat) (x : Item),
      x ∈ acc.1 → x ∈ (reps.foldl (repStep prev hash dn order now) acc).1 := by
  intro reps
  induction reps with
  | nil => intro acc x hx; exact hx
  | cons b t ih =>
    intro acc x hx
    rw [List.foldl_cons]
    apply ih
    unfold repStep
    split
    · exact hx
    · exact List.mem_append_left _ hx

theorem repFold_nil_iff (prev : List Item) (hash : String) (dn : JsNum)
    (order : Option String) (now : Nat) :
    ∀ (reps : List (String × Option String)) (acc : List Item × Nat),
      (reps.foldl (repStep prev hash dn order now) acc).1 = []
        ↔ acc.1 = [] ∧ ∀ bp ∈ reps,
            prev.any (fun it => decide (it.fullHash = hash ∧ it.type = bp.1)) = true := by
  intro reps
  induction reps with
  | nil => intro acc; simp
  | cons b t ih =>
    intro acc
    rw [List.foldl_cons, ih]
    constructor
    · rintro ⟨hstep, hall⟩
      unfold repStep at hstep
      split at hstep
      · next hcond =>
          refine ⟨hstep, ?_⟩
          intro bp hbp
          rcases List.mem_cons.mp hbp with rfl | h
          · exact hcond
          · exact hall bp h
      · exact absurd hstep (by simp)
    · rintro ⟨hacc, hall⟩
      have hcond := hall b (List.mem_cons_self b t)
      refine ⟨?_, fun bp hbp => hall bp (List.mem_cons_of_mem b hbp)⟩
      unfold repStep
      rw [if_pos hcond]
      exact hacc

theorem repFold_covers (prev : List Item) (hash : String) (dn : JsNum)
    (order : Option String) (now : Nat) :
    ∀ (reps : List (String × Option String)) (acc : List Item × Nat)
      (bp : String × Option String), bp ∈ reps →
      prev.any (fun it => decide (it.fullHash = hash ∧ it.type = bp.1)) = true
        ∨ ∃ it ∈ (reps.foldl (repStep prev hash dn order now) acc).1,
            it.fullHash = hash ∧ it.type = bp.1 := by
  intro reps
  induction reps with
  | nil => intro acc bp hbp; cases hbp
  | cons b t ih =>
    intro acc bp hbp
    rcases List.mem_cons.mp hbp with rfl | hbt
    · by_cases hc : prev.any (fun it => decide (it.fullHash = hash ∧ it.type = bp.1)) = true
      · exact Or.inl hc
      · right
        refine ⟨mkBlockItem bp.1 hash bp.2 dn order now acc.2, ?_, rfl, rfl⟩
        rw [List.foldl_cons]
        apply repStep_fst_mono
        unfold repStep
        rw [if_neg hc]
        exact List.mem_append_right _ (List.mem_singleton_self _)
    · rw [List.foldl_cons]
      exact ih (repStep prev hash dn order now acc b) bp hbt

theorem repFold_length_le (prev : List Item) (hash : String) (dn : JsNum)
    (order : Option String) (now : Nat) :
    ∀ (reps : List (String × Option String)) (acc : List Item × Nat),
      ((reps.foldl (repStep prev hash dn order now) acc).1).length
        ≤ acc.1.length + reps.length := by
  intro reps
  induction reps with
  | nil => intro acc; simp
  | cons b t ih =>
    intro acc
    rw [List.foldl_cons]
    have hstep : (repStep prev hash dn order now acc b).1.length ≤ acc.1.length + 1 := by
      unfold repStep
      split
      · omega
      · simp
    have := ih (repStep prev hash dn order now acc b)
    simp only [List.length_cons]
    omega

theorem blockReps_length_le (o : JsNum) (ph : Option String) (hps : List String) :
    (blockReps o ph hps).length ≤ 3 := by
  unfold blockReps
  split
  · simp
  · split
    · simp
    · simp

theorem blockNewItems_length_le (prev : List Item) (hash : String)
    (parentHash number order : Option String) (hps : List String) (now : Nat) :
    (blockNewItems prev hash parentHash number order hps now).length ≤ 3 := by
  unfold blockNewItems
  have h := repFold_length_le prev hash (parseIntHex number) order now
    (blockReps (parseIntHex order) parentHash hps) ([], 0)
  have h2 := blockReps_length_le (parseIntHex order) parentHash hps
  simp only [List.length_nil] at h
  omega

theorem blockNewItems_nil_iff (prev : List Item) (hash : String)
    (parentHash number order : Option String) (hps : List String) (now : Nat) :
    blockNewItems prev hash parentHash number order hps now = []
      ↔ ∀ bp ∈ blockReps (parseIntHex order) parentHash hps,
          prev.any (fun it => decide (it.fullHash = hash ∧ it.type = bp.1)) = true := by
  unfold blockNewItems
  rw [repFold_nil_iff]
  simp

theorem blockNewItems_covers (prev : List Item) (hash : String)
    (parentHash number order : Option String) (hps : List String) (now : Nat)
    {bp : String × Option String}
    (hbp : bp ∈ blockReps (parseIntHex order) parentHash hps) :
    prev.any (fun it => decide (it.fullHash = hash ∧ it.type = bp.1)) = true
      ∨ ∃ it ∈ blockNewItems prev hash parentHash number order hps now,
          it.fullHash = hash ∧ it.type = bp.1 := by
  unfold blockNewItems
  exact repFold_covers _ _ _ _ _ _ _ _ hbp

/-- Replacing one list element by an element with the same `number` leaves
the sequence of `number` keys unchanged. -/
theorem map_number_set :
    ∀ (l : List Item) (i : Nat) (u : Item),
      (∀ old, l[i]? = some old → u.number = old.number) →
      (l.set i u).map Item.number = l.map Item.number := by
  intro l
  induction l with
  | nil => intro i u _; rfl
  | cons a t ih =>
    intro i u hkey
    cases i with
    | zero =>
      rw [List.set_cons_zero]
      simp only [List.map_cons]
      rw [hkey a (by simp)]
    | succ j =>
      rw [List.set_cons_succ]
      simp only [List.map_cons]
      rw [ih j u (fun old hold => hkey old (by
        rw [List.getElem?_cons_succ]
        exact hold))]

/-! ### C1 amended — sort discipline of addItem, path by path -/

/-- C1 amended: an `addItem` call that inserts at least one new item and
cannot evict (post-insert length within the cap) re-sorts the whole
collection and returns it sorted ascending by `number` (nulls as 0); an
update-in-place or no-op call on an existing non-block item does not re-sort
at all — the sequence of `number` keys is returned exactly as it was, so
after an earlier eviction pass it can stay non-ascending. -/
theorem addItem_sort_discipline (cap now : Nat) (typ hash : String)
    (parentHash number order includingHash : Option String) (hps : List String)
    (s : St) :
    (typ ≠ "block" →
        s.items.findIdx? (fun it => decide (it.fullHash = hash ∧ it.type = typ)) = none →
        s.items.length + 1 ≤ cap →
        List.Sorted numAscR
          (addItem cap now typ hash parentHash number order hps includingHash s).st.items)
      ∧ (typ = "block" →
          blockNewItems s.items hash parentHash number order hps now ≠ [] →
          s.items.length
              + (blockNewItems s.items hash parentHash number order hps now).length ≤ cap →
          List.Sorted numAscR
            (addItem cap now typ hash parentHash number order hps includingHash s).st.items)
      ∧ (typ ≠ "block" →
          (s.items.findIdx? (fun it => decide (it.fullHash = hash ∧ it.type = typ))).isSome →
          (addItem cap now typ hash parentHash number order hps includingHash
              s).st.items.map Item.number
            = s.items.map Item.number) := by
  refine ⟨?_, ?_, ?_⟩
  · intro htyp hfind hcap
    unfold addItem addItemNonBlock
    rw [if_pos htyp, hfind]
    dsimp only
    rw [cleanup_eq_of_le (by
      rw [List.length_insertionSort, List.length_append]
      simp only [List.length_cons, List.length_nil]
      omega)]
    exact List.sorted_insertionSort numAscR _
  · intro htyp hne hcap
    unfold addItem addItemBlock
    rw [if_neg (by simp [htyp])]
    dsimp only
    rw [if_neg hne]
    dsimp only
    rw [cleanup_eq_of_le (by
      rw [List.length_insertionSort, List.length_append]
      omega)]
    exact List.sorted_insertionSort numAscR _
  · intro htyp hfound
    rcases Option.isSome_iff_exists.mp hfound with ⟨idx, hidx⟩
    unfold addItem addItemNonBlock
    rw [if_pos htyp, hidx]
    dsimp only
    split
    · split
      · next old hold =>
          exact map_number_set _ _ _ (fun old' hold' => by
            rw [hold] at hold'
            cases hold'
            rfl)
      · rfl
    · rfl

/-- C1 amended witness: a fresh workshare inserted into the reachable
eviction-ordered store `c1s3` with room to spare comes back sorted. -/
theorem addItem_sort_discipline_witness :
    List.Sorted numAscR
      (addItem 5 9 "workshare" "hNew" none (some "0x7") none [] none c1s3).st.items :=
  (addItem_sort_discipline 5 9 "workshare" "hNew" none (some "0x7") none none [] c1s3).1
    (by decide) (by decide) (by decide)

/-! ### C6 amended — idempotence without eviction -/

theorem addItemBlock_nil_newItems (cap now : Nat) (hash : String)
    (parentHash number order : Option String) (hps : List String) (s : St)
    (h : blockNewItems s.items hash parentHash number order hps now = []) :
    addItemBlock cap now hash parentHash number order hps s = ⟨s, []⟩ := by
  unfold addItemBlock
  dsimp only
  rw [if_pos h]

/-- C6 amended: as long as the first insertion cannot evict any newly added
representation (`length + 3 ≤ cap`), re-inserting the same raw block
notification is a strict no-op: the second call returns the store of the
first call unchanged and issues no fetch requests.  (The C6 counterexample
shows this fails when eviction interleaves.) -/
theorem addItemBlock_idempotent_under_cap (cap now1 now2 : Nat) (hash : String)
    (parentHash number order : Option String) (hps : List String) (s : St)
    (hcap : s.items.length + 3 ≤ cap) :
    addItemBlock cap now2 hash parentHash number order hps
        (addItemBlock cap now1 hash parentHash number order hps s).st
      = ⟨(addItemBlock cap now1 hash parentHash number order hps s).st, []⟩ := by
  by_cases h1 : blockNewItems s.items hash parentHash number order hps now1 = []
  · rw [addItemBlock_nil_newItems _ _ _ _ _ _ _ _ h1]
    dsimp only
    have h2 : blockNewItems s.items hash parentHash number order hps now2 = [] := by
      rw [blockNewItems_nil_iff] at h1 ⊢
      exact h1
    rw [addItemBlock_nil_newItems _ _ _ _ _ _ _ _ h2]
  · have e1 : (addItemBlock cap now1 hash parentHash number order hps s).st.items
        = List.insertionSort numAscR
            (s.items ++ blockNewItems s.items hash parentHash number order hps now1) := by
      unfold addItemBlock
      dsimp only
      rw [if_neg h1]
      dsimp only
      rw [cleanup_eq_of_le (by
        rw [List.length_insertionSort, List.length_append]
        have := blockNewItems_length_le s.items hash parentHash number order hps now1
        omega)]
    have h2 : blockNewItems
        (addItemBlock cap now1 hash parentHash number order hps s).st.items
          hash parentHash number order hps now2 = [] := by
      rw [blockNewItems_nil_iff]
      intro bp hbp
      rcases blockNewItems_covers s.items hash parentHash number order hps now1 hbp with
        hskip | ⟨it, hit, hfh, hty⟩
      · rcases List.any_eq_true.mp hskip with ⟨x, hx, hpx⟩
        refine List.any_eq_true.mpr ⟨x, ?_, hpx⟩
        rw [e1, List.mem_insertionSort]
        exact List.mem_append_left _ hx
      · refine List.any_eq_true.mpr ⟨it, ?_, by simp [hfh, hty]⟩
        rw [e1, List.mem_insertionSort]
        exact List.mem_append_right _ hit
    exact addItemBlock_nil_newItems _ _ _ _ _ _ _ _ h2

/-- C6 amended witness. -/
theorem addItemBlock_idempotent_under_cap_witness :
    addItemBlock 5 2 "hX" (some "0xZ") (some "0x1") (some "0x0") ["0xP", "0xR"]
        (addItemBlock 5 1 "hX" (some "0xZ") (some "0x1") (some "0x0") ["0xP", "0xR"]
          St.empty).st
      = ⟨(addItemBlock 5 1 "hX" (some "0xZ") (some "0x1") (some "0x0") ["0xP", "0xR"]
          St.empty).st, []⟩ :=
  addItemBlock_idempotent_under_cap 5 1 2 "hX" (some "0xZ") (some "0x1") (some "0x0")
    ["0xP", "0xR"] St.empty (by decide)

end ChainVis
